import Mathlib

/-!
Verification of the release-order resolver of `release-oxc` (`src/publish.rs`).

The resolver (`release_order` / `release_order_inner` / `is_package_in` in the
Rust source) performs a depth-first traversal over a collection of packages,
emitting each package after its in-scope dependencies, detecting circular
dependencies, and (a quirk of the original code) clearing the entire `passed`
marker vector whenever a package is appended to the result.

The embedding below mirrors the Rust code:
  * `Package` keeps the two fields the resolver reads: `name` and the names of
    the declared dependencies (`cargo_metadata::Dependency` is only ever
    inspected through its `name` field, at `d.name == p.name`).
  * Rust's in-place mutation of `order` / `passed` becomes explicit state
    threading; `anyhow::Result` plus the `?` operator become `Except` with an
    explicit short-circuiting match; the structured error `RError.circular
    dep.name pkg.name` stands for the formatted message
    `"Circular dependency detected: {dep.name} -> {pkg.name}"`.
  * The unbounded Rust recursion of `release_order_inner` becomes a
    fuel-indexed recursion; `none` means "fuel exhausted".  Termination of the
    Rust function corresponds to the existence of a fuel after which the
    result is `some` and stable.
-/

namespace ReleaseOxc

/-- A workspace package as seen by the resolver: its `name` and the names of
its declared dependencies, in declaration order. -/
structure Package where
  name : String
  dependencies : List String
deriving DecidableEq, Repr

/-- The single resolver error, `"Circular dependency detected: {dep} -> {pkg}"`,
kept structured so both reported names are accessible. -/
inductive RError where
  | circular (depName pkgName : String)
deriving DecidableEq, Repr

/-- The mutable traversal state of the Rust code: the accumulating `order`
vector and the `passed` marker vector. -/
abbrev RState := List Package × List Package

/-- Names of a list of packages, in order. -/
def namesOf (l : List Package) : List String :=
  l.map Package.name

/-- `is_package_in` from `src/publish.rs`: membership by name only
(`packages.iter().any(|p| p.name == pkg.name)`). -/
def is_package_in (pkg : Package) (packages : List Package) : Bool :=
  packages.any (fun p => p.name == pkg.name)

/-- The dependency lookup of `release_order_inner`:
`packages.iter().find(|p| d.name == p.name && p.name != pkg.name)`. -/
def findDep (packages : List Package) (pkg : Package) (d : String) : Option Package :=
  packages.find? (fun p => d == p.name && p.name != pkg.name)

/-- The body of the `for d in &pkg.dependencies` loop of `release_order_inner`,
parametrised by the recursive call `inner` (the recursion on the package is tied
in `release_order_inner` below).  Each iteration looks the dependency name up
with `findDep`, raises the circular-dependency error when the dependency is
already in `passed`, and otherwise recurses, threading the mutated state. -/
def visit_deps (packages : List Package)
    (inner : Package → List Package → List Package → Option (Except RError RState))
    (pkg : Package) :
    List String → List Package → List Package → Option (Except RError RState)
  | [], order, passed => some (Except.ok (order, passed))
  | d :: rest, order, passed =>
    match findDep packages pkg d with
    | none => visit_deps packages inner pkg rest order passed
    | some dep =>
      if is_package_in dep passed then
        some (Except.error (RError.circular dep.name pkg.name))
      else
        match inner dep order passed with
        | none => none
        | some (Except.error e) => some (Except.error e)
        | some (Except.ok (order2, passed2)) =>
          visit_deps packages inner pkg rest order2 passed2

/-- `release_order_inner` from `src/publish.rs`, with a fuel bound on the
recursion depth.  On entry it returns early when `pkg` is already in `order`,
otherwise pushes `pkg` onto `passed`, walks the dependencies, then pushes `pkg`
onto `order` and clears `passed` entirely (`passed.clear()`). -/
def release_order_inner (packages : List Package) :
    Nat → Package → List Package → List Package → Option (Except RError RState)
  | 0, _, _, _ => none
  | fuel + 1, pkg, order, passed =>
    if is_package_in pkg order then
      some (Except.ok (order, passed))
    else
      match visit_deps packages (release_order_inner packages fuel) pkg
          pkg.dependencies order (passed ++ [pkg]) with
      | none => none
      | some (Except.error e) => some (Except.error e)
      | some (Except.ok (order2, _)) => some (Except.ok (order2 ++ [pkg], []))

/-- The `for p in packages` loop of `release_order`, threading the shared
`order` and `passed` vectors and propagating the first error. -/
def release_order_loop (packages : List Package) (fuel : Nat) :
    List Package → List Package → List Package → Option (Except RError RState)
  | [], order, passed => some (Except.ok (order, passed))
  | p :: rest, order, passed =>
    match release_order_inner packages fuel p order passed with
    | none => none
    | some (Except.error e) => some (Except.error e)
    | some (Except.ok (order2, passed2)) =>
      release_order_loop packages fuel rest order2 passed2

/-- `release_order` from `src/publish.rs`: starts from empty `order` and
`passed`, visits every package in input order, and returns the final `order`. -/
def release_order (packages : List Package) (fuel : Nat) :
    Option (Except RError (List Package)) :=
  match release_order_loop packages fuel packages [] [] with
  | none => none
  | some (Except.error e) => some (Except.error e)
  | some (Except.ok (order, _)) => some (Except.ok order)

/-- `p` is the first package of its name in the collection, i.e. the package a
name-based lookup over `packages` resolves to. -/
def canonical (packages : List Package) (p : Package) : Prop :=
  packages.find? (fun q => q.name == p.name) = some p

/-- The in-scope dependency graph of the collection, as the code derives it:
there is an edge from `p` to `q` when some declared dependency name of `p`
resolves (by name matching, excluding self-matches and names not present in the
collection) to the package `q`. -/
def Edge (packages : List Package) (p q : Package) : Prop :=
  ∃ d ∈ p.dependencies, findDep packages p d = some q

/-- Acyclicity of the in-scope dependency graph. -/
def Acyclic (packages : List Package) : Prop :=
  ∀ p, ¬ Relation.TransGen (Edge packages) p p

/-- The ordering property of a result sequence: every in-scope dependency of
the package at position `i` appears (by name) strictly before position `i`. -/
def depsBefore (packages order : List Package) : Prop :=
  ∀ i (h : i < order.length), ∀ d ∈ (order.get ⟨i, h⟩).dependencies,
    ∀ dep, findDep packages (order.get ⟨i, h⟩) d = some dep →
      dep.name ∈ namesOf (order.take i)

/-- Invariant of the accumulating `order` vector: correctly ordered, no name
twice, and every entry is a canonical member of the input collection. -/
def OrdInv (packages order : List Package) : Prop :=
  depsBefore packages order ∧ (namesOf order).Nodup ∧
    (∀ p ∈ order, p ∈ packages) ∧ (∀ p ∈ order, canonical packages p)

/-- Invariant of a (ghost) list of active ancestor packages: each is a
canonical member of the collection whose name has not yet been emitted. -/
def AncInv (packages A order : List Package) : Prop :=
  (∀ a ∈ A, a ∈ packages) ∧ (∀ a ∈ A, canonical packages a) ∧
    (∀ a ∈ A, a.name ∉ namesOf order)

/-- Structural behaviour of a recursive call handed to `visit_deps`: on
success the order only grows, and either nothing changed (early return) or the
passed vector was cleared and the order strictly grew. -/
def InnerShape
    (inner : Package → List Package → List Package → Option (Except RError RState)) :
    Prop :=
  ∀ pkg order passed order2 passed2,
    inner pkg order passed = some (Except.ok (order2, passed2)) →
    (∃ ext, order2 = order ++ ext) ∧
      ((order2 = order ∧ passed2 = passed) ∨
        (passed2 = [] ∧ order.length < order2.length))

/-- Pointwise refinement between two recursive calls: every defined result of
the first is also the result of the second. -/
def InnerLe
    (inner₁ inner₂ : Package → List Package → List Package → Option (Except RError RState)) :
    Prop :=
  ∀ pkg order passed r,
    inner₁ pkg order passed = some r → inner₂ pkg order passed = some r

/-- Postcondition of a successful non-re-entrant visit of `pkg` relative to a
ghost list `A` of strict ancestors: the order grows by canonical packages
reachable from `pkg` whose names avoid the ancestors, `pkg` itself ends up in
the order, the passed vector is untouched or cleared, and the order invariant
is preserved. -/
def InnerPost (packages A : List Package) (pkg : Package)
    (order passed order2 passed2 : List Package) : Prop :=
  (∃ ext, order2 = order ++ ext ∧
    ∀ q ∈ ext, q ∈ packages ∧ canonical packages q ∧
      Relation.ReflTransGen (Edge packages) pkg q ∧ q.name ∉ namesOf A) ∧
  pkg.name ∈ namesOf order2 ∧
  ((order2 = order ∧ passed2 = passed) ∨ passed2 = []) ∧
  OrdInv packages order2

/-- Postcondition of a successful dependency walk of `pkg` (ancestors `Av`
include `pkg` itself): the order grows by canonical packages strictly
reachable from `pkg` avoiding `Av`, every processed in-scope dependency ends up
in the order, and the invariants are preserved. -/
def VisitPost (packages Av : List Package) (pkg : Package) (ds : List String)
    (order passed order2 passed2 : List Package) : Prop :=
  (∃ ext, order2 = order ++ ext ∧
    ∀ q ∈ ext, q ∈ packages ∧ canonical packages q ∧
      Relation.TransGen (Edge packages) pkg q ∧ q.name ∉ namesOf Av) ∧
  (∀ d ∈ ds, ∀ dep, findDep packages pkg d = some dep → dep.name ∈ namesOf order2) ∧
  ((order2 = order ∧ passed2 = passed) ∨ passed2 = []) ∧
  OrdInv packages order2

/-- Property (A): a successful call of `inner` from an invariant-respecting
state satisfies `InnerPost`. -/
def InnerA (packages : List Package)
    (inner : Package → List Package → List Package → Option (Except RError RState)) :
    Prop :=
  ∀ pkg order passed A order2 passed2,
    pkg ∈ packages →
    (canonical packages pkg ∨ pkg.name ∈ namesOf order) →
    pkg.name ∉ namesOf A →
    AncInv packages A order →
    List.Chain' (Edge packages) (A ++ [pkg]) →
    OrdInv packages order →
    inner pkg order passed = some (Except.ok (order2, passed2)) →
    InnerPost packages A pkg order passed order2 passed2

/-- Property (B): a re-entrant call of `inner` — on a package that is already
an active ancestor — never returns successfully. -/
def InnerB (packages : List Package)
    (inner : Package → List Package → List Package → Option (Except RError RState)) :
    Prop :=
  ∀ pkg order passed A,
    pkg ∈ packages →
    canonical packages pkg →
    pkg.name ∈ namesOf A →
    AncInv packages A order →
    List.Chain' (Edge packages) (A ++ [pkg]) →
    OrdInv packages order →
    ∀ order2 passed2,
      inner pkg order passed ≠ some (Except.ok (order2, passed2))

/-- Call-time invariant of a single visit: the package, the order, the passed
markers and the ghost ancestor chain are all well formed. -/
def CInv (packages : List Package) (pkg : Package) (order passed A : List Package) : Prop :=
  pkg ∈ packages ∧
  (canonical packages pkg ∨ pkg.name ∈ namesOf order) ∧
  AncInv packages A order ∧
  List.Chain' (Edge packages) (A ++ [pkg]) ∧
  OrdInv packages order ∧
  (∀ r ∈ passed, r ∈ packages) ∧
  (∀ r ∈ passed, canonical packages r) ∧
  (namesOf passed).Nodup ∧
  pkg.name ∉ namesOf passed

/-- The external commands `Publish::run` issues: the single
`cargo check --all-features --all-targets` and one `cargo publish` per
package name, in order. -/
inductive Cmd where
  | check
  | publish (name : String)
deriving DecidableEq, Repr

/-- Outcome of `Publish::run`: success, the propagated resolver error, a failed
check command, or a failed publish command. -/
inductive RunOutcome where
  | finished
  | resolverError (e : RError)
  | checkFailed
  | publishFailed (name : String)
deriving DecidableEq, Repr

/-- The `for package in &packages { self.cargo.publish(package)?; }` loop of
`Publish::run`, abstracted over the success of each publish command: publishes
in order and stops at the first failure (whose command was still invoked). -/
def publish_each (pubOk : String → Bool) : List String → List Cmd × RunOutcome
  | [] => ([], RunOutcome.finished)
  | n :: rest =>
    if pubOk n then
      let r := publish_each pubOk rest
      (Cmd.publish n :: r.1, r.2)
    else ([Cmd.publish n], RunOutcome.publishFailed n)

/-- `Publish::run` from `src/publish.rs`, abstracted over the outcomes of the
external cargo commands: it resolves the release order first (the `?` operator
propagates the resolver error before any command runs), then invokes the check
command once, then publishes each package in the resolved order.  The result
pairs the executed command trace with the outcome. -/
def publish_run (packages : List Package) (checkOk : Bool) (pubOk : String → Bool)
    (fuel : Nat) : Option (List Cmd × RunOutcome) :=
  match release_order packages fuel with
  | none => none
  | some (Except.error e) => some ([], RunOutcome.resolverError e)
  | some (Except.ok order) =>
    if checkOk then
      let r := publish_each pubOk (order.map Package.name)
      some (Cmd.check :: r.1, r.2)
    else some ([Cmd.check], RunOutcome.checkFailed)

/-- Package `A` with no dependencies (scenario inputs). -/
def pkgA : Package := ⟨"A", []⟩

/-- Package `B` depending on `A`. -/
def pkgB : Package := ⟨"B", ["A"]⟩

/-- Package `C` depending on `A`. -/
def pkgC : Package := ⟨"C", ["A"]⟩

/-- Package `A` of the two-package cycle (depends on `B`). -/
def cycA : Package := ⟨"A", ["B"]⟩

/-- Package `B` of the two-package cycle (depends on `A`). -/
def cycB : Package := ⟨"B", ["A"]⟩

/-- Package `A` declaring itself as a dependency. -/
def selfA : Package := ⟨"A", ["A"]⟩

/-- Package `A` depending only on the out-of-scope name `external-lib`. -/
def extA : Package := ⟨"A", ["external-lib"]⟩

/-- Second package named `A`, distinct from `pkgA` (different dependencies). -/
def dupA2 : Package := ⟨"A", ["ext"]⟩

/-- An unrelated marker package used to populate the passed vector. -/
def pkgX : Package := ⟨"X", []⟩

theorem is_package_in_iff {pkg : Package} {l : List Package} :
    is_package_in pkg l = true ↔ pkg.name ∈ namesOf l := by
  simp only [is_package_in, namesOf, List.any_eq_true, List.mem_map, beq_iff_eq]

theorem is_package_in_false_iff {pkg : Package} {l : List Package} :
    is_package_in pkg l = false ↔ pkg.name ∉ namesOf l := by
  rw [← Bool.not_eq_true, not_iff_not]
  exact is_package_in_iff

theorem namesOf_append (l₁ l₂ : List Package) :
    namesOf (l₁ ++ l₂) = namesOf l₁ ++ namesOf l₂ :=
  List.map_append _ _ _

theorem findDep_mem {packages : List Package} {pkg dep : Package} {d : String}
    (h : findDep packages pkg d = some dep) : dep ∈ packages :=
  List.mem_of_find?_eq_some h

theorem findDep_spec {packages : List Package} {pkg dep : Package} {d : String}
    (h : findDep packages pkg d = some dep) : d = dep.name ∧ dep.name ≠ pkg.name := by
  have hp := List.find?_some h
  simp only [Bool.and_eq_true, beq_iff_eq, bne_iff_ne, ne_eq] at hp
  exact ⟨hp.1, hp.2⟩

theorem find?_cons_pos {α : Type} (p : α → Bool) (a : α) (l : List α) (h : p a = true) :
    (a :: l).find? p = some a := by
  simp [List.find?, h]

theorem find?_cons_neg {α : Type} (p : α → Bool) (a : α) (l : List α) (h : p a = false) :
    (a :: l).find? p = l.find? p := by
  simp [List.find?, h]

theorem findDep_canonical : ∀ {packages : List Package} {pkg dep : Package} {d : String},
    findDep packages pkg d = some dep → canonical packages dep := by
  intro packages
  induction packages with
  | nil => intro pkg dep d h; simp [findDep] at h
  | cons hd tl ih =>
    intro pkg dep d h
    obtain ⟨hdname, hne⟩ := findDep_spec h
    by_cases hcase : hd.name = dep.name
    · have hpred : (d == hd.name && hd.name != pkg.name) = true := by
        subst hdname
        simp only [Bool.and_eq_true, beq_iff_eq, bne_iff_ne, ne_eq]
        exact ⟨hcase.symm, fun hh => hne (hcase ▸ hh)⟩
      have hdep : dep = hd := by
        rw [findDep,
          find?_cons_pos (fun p => d == p.name && p.name != pkg.name) hd tl hpred] at h
        exact (Option.some_inj.mp h).symm
      rw [canonical, find?_cons_pos]
      · rw [hdep]
      · simp [hcase]
    · have hdne : d ≠ hd.name := by
        rw [hdname]; exact fun hh => hcase hh.symm
      have hpred : (d == hd.name && hd.name != pkg.name) = false := by
        simp [hdne]
      rw [findDep,
        find?_cons_neg (fun p => d == p.name && p.name != pkg.name) hd tl hpred] at h
      have hcan := ih h
      rw [canonical, find?_cons_neg]
      · exact hcan
      · simp [hcase]

theorem canonical_mem {packages : List Package} {p : Package}
    (h : canonical packages p) : p ∈ packages :=
  List.mem_of_find?_eq_some h

theorem canonical_unique {packages : List Package} {p q : Package}
    (hp : canonical packages p) (hq : canonical packages q) (h : p.name = q.name) :
    p = q := by
  rw [canonical] at hp hq
  simp only [h] at hp
  rw [hp] at hq
  exact Option.some_inj.mp hq

theorem edge_target {packages : List Package} {p q : Package} (h : Edge packages p q) :
    q ∈ packages ∧ canonical packages q ∧ q.name ≠ p.name := by
  obtain ⟨d, _, hfind⟩ := h
  exact ⟨findDep_mem hfind, findDep_canonical hfind, (findDep_spec hfind).2⟩

theorem chain_extend {R : Package → Package → Prop} {l : List Package} {p q : Package}
    (hch : List.Chain' R l) (hlast : l.getLast? = some p) (hR : R p q) :
    List.Chain' R (l ++ [q]) := by
  rw [List.chain'_append]
  refine ⟨hch, List.chain'_singleton q, ?_⟩
  intro x hx y hy
  rw [hlast] at hx
  simp only [List.head?_cons, Option.mem_def, Option.some_inj] at hx hy
  rw [← hx, ← hy]
  exact hR

theorem chain_reach {R : Package → Package → Prop} :
    ∀ {l : List Package} {a z : Package}, List.Chain' R l → l.getLast? = some z →
      a ∈ l → Relation.ReflTransGen R a z := by
  intro l
  induction l with
  | nil => intro a z _ _ ha; simp at ha
  | cons b t ih =>
    intro a z hch hlast ha
    cases t with
    | nil =>
      simp only [List.getLast?_singleton, Option.some_inj] at hlast
      simp only [List.mem_singleton] at ha
      rw [ha, hlast]
    | cons c t' =>
      have hR : R b c := (List.chain'_cons.mp hch).1
      have hch' : List.Chain' R (c :: t') := (List.chain'_cons.mp hch).2
      have hlast' : (c :: t').getLast? = some z := by
        rwa [List.getLast?_cons_cons] at hlast
      rcases List.mem_cons.mp ha with h | h
      · rw [h]
        exact Relation.ReflTransGen.head hR (ih hch' hlast' (List.mem_cons_self c t'))
      · exact ih hch' hlast' h

theorem chain_succ {R : Package → Package → Prop} :
    ∀ {l : List Package} {x a : Package}, List.Chain' R (l ++ [x]) → a ∈ l →
      ∃ b, R a b ∧ b ∈ l ++ [x] := by
  intro l
  induction l with
  | nil => intro x a _ ha; simp at ha
  | cons h t ih =>
    intro x a hch ha
    rw [List.cons_append] at hch
    rcases List.mem_cons.mp ha with rfl | hmem
    · cases t with
      | nil =>
        have hR : R a x := by
          simp only [List.nil_append] at hch
          exact (List.chain'_cons.mp hch).1
        exact ⟨x, hR, by simp⟩
      | cons c t' =>
        have hR : R a c := by
          rw [List.cons_append] at hch
          exact (List.chain'_cons.mp hch).1
        exact ⟨c, hR, by simp⟩
    · have hch' : List.Chain' R (t ++ [x]) := hch.tail
      obtain ⟨b, hb, hbmem⟩ := ih hch' hmem
      refine ⟨b, hb, ?_⟩
      rw [List.cons_append, List.mem_cons]
      exact Or.inr hbmem

theorem release_order_inner_succ (packages : List Package) (fuel : Nat) (pkg : Package)
    (order passed : List Package) :
    release_order_inner packages (fuel + 1) pkg order passed =
      if is_package_in pkg order then some (Except.ok (order, passed))
      else
        match visit_deps packages (release_order_inner packages fuel) pkg
            pkg.dependencies order (passed ++ [pkg]) with
        | none => none
        | some (Except.error e) => some (Except.error e)
        | some (Except.ok (order2, _)) => some (Except.ok (order2 ++ [pkg], [])) :=
  rfl

theorem visit_deps_shape {packages : List Package}
    {inner : Package → List Package → List Package → Option (Except RError RState)}
    (hI : InnerShape inner) {pkg : Package} :
    ∀ {ds : List String} {order passed order2 passed2 : List Package},
      visit_deps packages inner pkg ds order passed = some (Except.ok (order2, passed2)) →
      (∃ ext, order2 = order ++ ext) ∧
        ((order2 = order ∧ passed2 = passed) ∨
          (passed2 = [] ∧ order.length ≤ order2.length)) := by
  intro ds
  induction ds with
  | nil =>
    intro order passed order2 passed2 h
    simp only [visit_deps, Option.some_inj] at h
    obtain ⟨h1, h2⟩ := Prod.mk.injEq _ _ _ _ ▸ (Except.ok.injEq _ _ ▸ h)
    exact ⟨⟨[], by simp [h1]⟩, Or.inl ⟨h1.symm, h2.symm⟩⟩
  | cons d rest ih =>
    intro order passed order2 passed2 h
    cases hf : findDep packages pkg d with
    | none =>
      simp only [visit_deps, hf] at h
      exact ih h
    | some dep =>
      cases hin : is_package_in dep passed with
      | true => simp [visit_deps, hf, hin] at h
      | false =>
        cases hr : inner dep order passed with
        | none => simp [visit_deps, hf, hin, hr] at h
        | some r =>
          cases r with
          | error e => simp [visit_deps, hf, hin, hr] at h
          | ok st =>
            obtain ⟨o1, p1⟩ := st
            simp only [visit_deps, hf, hin, Bool.false_eq_true, if_false, hr] at h
            have h1 := hI dep order passed o1 p1 hr
            have h2 := ih h
            obtain ⟨⟨ext1, he1⟩, hd1⟩ := h1
            obtain ⟨⟨ext2, he2⟩, hd2⟩ := h2
            refine ⟨⟨ext1 ++ ext2, by rw [he2, he1, List.append_assoc]⟩, ?_⟩
            rcases hd1 with ⟨ho1, hp1⟩ | ⟨hp1, hlen1⟩
            · rcases hd2 with ⟨ho2, hp2⟩ | ⟨hp2, hlen2⟩
              · exact Or.inl ⟨by rw [ho2, ho1], by rw [hp2, hp1]⟩
              · exact Or.inr ⟨hp2, by rw [ho1] at hlen2; exact hlen2⟩
            · rcases hd2 with ⟨ho2, hp2⟩ | ⟨hp2, hlen2⟩
              · exact Or.inr ⟨by rw [hp2, hp1], by rw [ho2]; exact Nat.le_of_lt hlen1⟩
              · exact Or.inr ⟨hp2, Nat.le_trans (Nat.le_of_lt hlen1) hlen2⟩

theorem release_order_inner_shape (packages : List Package) :
    ∀ fuel, InnerShape (release_order_inner packages fuel) := by
  intro fuel
  induction fuel with
  | zero =>
    intro pkg order passed order2 passed2 h
    simp [release_order_inner] at h
  | succ fuel ih =>
    intro pkg order passed order2 passed2 h
    cases hin : is_package_in pkg order with
    | true =>
      simp only [release_order_inner, hin, if_true, Option.some_inj] at h
      obtain ⟨h1, h2⟩ := Prod.mk.injEq _ _ _ _ ▸ (Except.ok.injEq _ _ ▸ h)
      exact ⟨⟨[], by simp [h1]⟩, Or.inl ⟨h1.symm, h2.symm⟩⟩
    | false =>
      cases hv : visit_deps packages (release_order_inner packages fuel) pkg
          pkg.dependencies order (passed ++ [pkg]) with
      | none => simp [release_order_inner, hin, hv] at h
      | some r =>
        cases r with
        | error e => simp [release_order_inner, hin, hv] at h
        | ok st =>
          obtain ⟨o1, p1⟩ := st
          simp only [release_order_inner, hin, Bool.false_eq_true, if_false, hv,
            Option.some_inj] at h
          obtain ⟨h1, h2⟩ := Prod.mk.injEq _ _ _ _ ▸ (Except.ok.injEq _ _ ▸ h)
          obtain ⟨⟨ext, hext⟩, _⟩ := visit_deps_shape ih hv
          refine ⟨⟨ext ++ [pkg], by rw [← h1, hext, List.append_assoc]⟩, Or.inr ⟨h2.symm, ?_⟩⟩
          rw [← h1, hext]
          simp only [List.length_append, List.length_singleton]
          omega

theorem visit_deps_mono {packages : List Package}
    {inner₁ inner₂ : Package → List Package → List Package → Option (Except RError RState)}
    (hle : InnerLe inner₁ inner₂) {pkg : Package} :
    ∀ {ds : List String} {order passed : List Package} {r : Except RError RState},
      visit_deps packages inner₁ pkg ds order passed = some r →
      visit_deps packages inner₂ pkg ds order passed = some r := by
  intro ds
  induction ds with
  | nil => intro order passed r h; exact h
  | cons d rest ih =>
    intro order passed r h
    cases hf : findDep packages pkg d with
    | none =>
      simp only [visit_deps, hf] at h ⊢
      exact ih h
    | some dep =>
      cases hin : is_package_in dep passed with
      | true =>
        simp only [visit_deps, hf, hin, if_true] at h ⊢
        exact h
      | false =>
        cases hr : inner₁ dep order passed with
        | none => simp [visit_deps, hf, hin, hr] at h
        | some r1 =>
          have hr2 := hle dep order passed r1 hr
          cases r1 with
          | error e =>
            simp only [visit_deps, hf, hin, Bool.false_eq_true, if_false, hr, hr2] at h ⊢
            exact h
          | ok st =>
            obtain ⟨o1, p1⟩ := st
            simp only [visit_deps, hf, hin, Bool.false_eq_true, if_false, hr, hr2] at h ⊢
            exact ih h

theorem release_order_inner_mono (packages : List Package) :
    ∀ fuel, InnerLe (release_order_inner packages fuel)
      (release_order_inner packages (fuel + 1)) := by
  intro fuel
  induction fuel with
  | zero =>
    intro pkg order passed r h
    simp [release_order_inner] at h
  | succ fuel ih =>
    intro pkg order passed r h
    cases hin : is_package_in pkg order with
    | true =>
      simp only [release_order_inner, hin, if_true] at h ⊢
      exact h
    | false =>
      rw [release_order_inner_succ] at h ⊢
      simp only [hin, Bool.false_eq_true, if_false] at h ⊢
      cases hv : visit_deps packages (release_order_inner packages fuel) pkg
          pkg.dependencies order (passed ++ [pkg]) with
      | none => rw [hv] at h; exact absurd h (by simp)
      | some r1 =>
        have hv2 := visit_deps_mono ih hv
        rw [hv] at h
        rw [hv2]
        exact h

theorem release_order_inner_le {packages : List Package} {fuel fuel' : Nat}
    (h : fuel ≤ fuel') :
    InnerLe (release_order_inner packages fuel) (release_order_inner packages fuel') := by
  induction fuel' with
  | zero =>
    have : fuel = 0 := Nat.le_zero.mp h
    rw [this]
    intro pkg order passed r hr
    exact hr
  | succ fuel' ih =>
    rcases Nat.lt_or_ge fuel (fuel' + 1) with hlt | hge
    · intro pkg order passed r hr
      exact release_order_inner_mono packages fuel'  pkg order passed r
        (ih (Nat.lt_succ_iff.mp hlt) pkg order passed r hr)
    · have : fuel = fuel' + 1 := Nat.le_antisymm h hge
      rw [this]
      intro pkg order passed r hr
      exact hr

theorem release_order_loop_mono {packages : List Package} {fuel fuel' : Nat}
    (h : fuel ≤ fuel') :
    ∀ {todo order passed : List Package} {r : Except RError RState},
      release_order_loop packages fuel todo order passed = some r →
      release_order_loop packages fuel' todo order passed = some r := by
  intro todo
  induction todo with
  | nil => intro order passed r hr; exact hr
  | cons p rest ih =>
    intro order passed r hr
    cases hi : release_order_inner packages fuel p order passed with
    | none => simp [release_order_loop, hi] at hr
    | some r1 =>
      have hi2 := release_order_inner_le h p order passed r1 hi
      cases r1 with
      | error e =>
        simp only [release_order_loop, hi, hi2] at hr ⊢
        exact hr
      | ok st =>
        obtain ⟨o1, p1⟩ := st
        simp only [release_order_loop, hi, hi2] at hr ⊢
        exact ih hr

theorem release_order_mono {packages : List Package} {fuel fuel' : Nat}
    (h : fuel ≤ fuel') {r : Except RError (List Package)}
    (hr : release_order packages fuel = some r) :
    release_order packages fuel' = some r := by
  cases hl : release_order_loop packages fuel packages [] [] with
  | none => simp [release_order, hl] at hr
  | some r1 =>
    have hl2 := release_order_loop_mono h hl
    cases r1 with
    | error e =>
      simp only [release_order, hl, hl2] at hr ⊢
      exact hr
    | ok st =>
      simp only [release_order, hl, hl2] at hr ⊢
      exact hr

theorem mem_namesOf {n : String} {l : List Package} :
    n ∈ namesOf l ↔ ∃ p ∈ l, p.name = n :=
  List.mem_map

theorem namesOf_mono_left {l1 l2 : List Package} {n : String} (h : n ∈ namesOf l1) :
    n ∈ namesOf (l1 ++ l2) := by
  rw [namesOf_append]
  exact List.mem_append_left _ h

theorem depsBefore_append {packages order : List Package} {pkg : Package}
    (h : depsBefore packages order)
    (hp : ∀ d ∈ pkg.dependencies, ∀ dep, findDep packages pkg d = some dep →
      dep.name ∈ namesOf order) :
    depsBefore packages (order ++ [pkg]) := by
  intro i hi d hd dep hdep
  have hilen : i < order.length + 1 := by
    simpa using hi
  by_cases hlt : i < order.length
  · have hget : (order ++ [pkg]).get ⟨i, hi⟩ = order.get ⟨i, hlt⟩ := by
      rw [List.get_eq_getElem, List.get_eq_getElem, List.getElem_append_left]
    have htake : (order ++ [pkg]).take i = order.take i :=
      List.take_append_of_le_length (Nat.le_of_lt hlt)
    rw [hget] at hd hdep
    rw [htake]
    exact h i hlt d hd dep hdep
  · have hieq : i = order.length := by omega
    have hget : (order ++ [pkg]).get ⟨i, hi⟩ = pkg := by
      rw [List.get_eq_getElem]
      subst hieq
      simp
    have htake : (order ++ [pkg]).take i = order := by
      subst hieq
      exact List.take_left order [pkg]
    rw [hget] at hd hdep
    rw [htake]
    exact hp d hd dep hdep

theorem visit_deps_A {packages : List Package}
    {inner : Package → List Package → List Package → Option (Except RError RState)}
    (hA : InnerA packages inner) (hB : InnerB packages inner)
    {pkg : Package} (_hpm : pkg ∈ packages) :
    ∀ {ds : List String} {order passed Av order2 passed2 : List Package},
      (∀ d ∈ ds, d ∈ pkg.dependencies) →
      AncInv packages Av order →
      List.Chain' (Edge packages) Av →
      Av.getLast? = some pkg →
      OrdInv packages order →
      visit_deps packages inner pkg ds order passed = some (Except.ok (order2, passed2)) →
      VisitPost packages Av pkg ds order passed order2 passed2 := by
  intro ds
  induction ds with
  | nil =>
    intro order passed Av order2 passed2 _ _ _ _ hOrd h
    simp only [visit_deps, Option.some_inj, Except.ok.injEq, Prod.mk.injEq] at h
    obtain ⟨h1, h2⟩ := h
    subst h1
    subst h2
    refine ⟨⟨[], by simp, by simp⟩, ?_, Or.inl ⟨rfl, rfl⟩, hOrd⟩
    intro d hd
    exact absurd hd (List.not_mem_nil d)
  | cons d rest ih =>
    intro order passed Av order2 passed2 hds hanc hchain hlast hOrd h
    have hdmem : d ∈ pkg.dependencies := hds d (List.mem_cons_self d rest)
    have hdsrest : ∀ d' ∈ rest, d' ∈ pkg.dependencies :=
      fun d' hd' => hds d' (List.mem_cons_of_mem d hd')
    cases hf : findDep packages pkg d with
    | none =>
      simp only [visit_deps, hf] at h
      obtain ⟨⟨ext, he, hext⟩, hres, hpass, hOrd2⟩ := ih hdsrest hanc hchain hlast hOrd h
      refine ⟨⟨ext, he, hext⟩, ?_, hpass, hOrd2⟩
      intro d' hd' dep hdep
      rcases List.mem_cons.mp hd' with heq | hd'
      · rw [heq, hf] at hdep
        exact absurd hdep (by simp)
      · exact hres d' hd' dep hdep
    | some dep =>
      have hEdge : Edge packages pkg dep := ⟨d, hdmem, hf⟩
      have hdepmem : dep ∈ packages := findDep_mem hf
      have hdepcanon : canonical packages dep := findDep_canonical hf
      have hchain2 : List.Chain' (Edge packages) (Av ++ [dep]) := chain_extend hchain hlast hEdge
      cases hin : is_package_in dep passed with
      | true => simp [visit_deps, hf, hin] at h
      | false =>
        cases hr : inner dep order passed with
        | none => simp [visit_deps, hf, hin, hr] at h
        | some r =>
          cases r with
          | error e => simp [visit_deps, hf, hin, hr] at h
          | ok st =>
            obtain ⟨o1, p1⟩ := st
            simp only [visit_deps, hf, hin, Bool.false_eq_true, if_false, hr] at h
            by_cases hre : dep.name ∈ namesOf Av
            · exact absurd hr
                (hB dep order passed Av hdepmem hdepcanon hre hanc hchain2 hOrd o1 p1)
            · have hpost :=
                hA dep order passed Av o1 p1 hdepmem (Or.inl hdepcanon) hre hanc hchain2 hOrd hr
              obtain ⟨⟨ext1, he1, hext1⟩, hdepin, hpass1, hOrd1⟩ := hpost
              have hanc1 : AncInv packages Av o1 := by
                refine ⟨hanc.1, hanc.2.1, ?_⟩
                intro a ha hmem
                rw [he1, namesOf_append] at hmem
                rcases List.mem_append.mp hmem with hmem | hmem
                · exact hanc.2.2 a ha hmem
                · obtain ⟨q, hq, hqname⟩ := mem_namesOf.mp hmem
                  exact (hext1 q hq).2.2.2
                    (by rw [hqname]; exact mem_namesOf.mpr ⟨a, ha, rfl⟩)
              obtain ⟨⟨ext2, he2, hext2⟩, hres2, hpass2, hOrd2⟩ :=
                ih hdsrest hanc1 hchain hlast hOrd1 h
              refine ⟨⟨ext1 ++ ext2, by rw [he2, he1, List.append_assoc], ?_⟩, ?_, ?_, hOrd2⟩
              · intro q hq
                rcases List.mem_append.mp hq with hq | hq
                · obtain ⟨hq1, hq2, hq3, hq4⟩ := hext1 q hq
                  exact ⟨hq1, hq2, Relation.TransGen.head' hEdge hq3, hq4⟩
                · exact hext2 q hq
              · intro d' hd' dep' hdep'
                rcases List.mem_cons.mp hd' with heq | hd'
                · rw [heq, hf] at hdep'
                  have hdd : dep = dep' := Option.some_inj.mp hdep'
                  rw [← hdd, he2]
                  exact namesOf_mono_left hdepin
                · exact hres2 d' hd' dep' hdep'
              · rcases hpass1 with ⟨ho1, hp1⟩ | hp1
                · rcases hpass2 with ⟨ho2, hp2⟩ | hp2
                  · exact Or.inl ⟨by rw [ho2, ho1], by rw [hp2, hp1]⟩
                  · exact Or.inr hp2
                · rcases hpass2 with ⟨ho2, hp2⟩ | hp2
                  · exact Or.inr (by rw [hp2, hp1])
                  · exact Or.inr hp2

theorem visit_deps_B {packages : List Package}
    {inner : Package → List Package → List Package → Option (Except RError RState)}
    (hA : InnerA packages inner) (hB : InnerB packages inner)
    {pkg : Package} :
    ∀ {ds : List String} {order passed Av : List Package},
      (∀ d ∈ ds, d ∈ pkg.dependencies) →
      AncInv packages Av order →
      List.Chain' (Edge packages) Av →
      Av.getLast? = some pkg →
      OrdInv packages order →
      (∃ d ∈ ds, ∃ dep, findDep packages pkg d = some dep ∧ dep.name ∈ namesOf Av) →
      ∀ order2 passed2,
        visit_deps packages inner pkg ds order passed ≠ some (Except.ok (order2, passed2)) := by
  intro ds
  induction ds with
  | nil =>
    intro order passed Av _ _ _ _ _ hwit order2 passed2
    obtain ⟨d, hd, _⟩ := hwit
    exact absurd hd (List.not_mem_nil d)
  | cons d rest ih =>
    intro order passed Av hds hanc hchain hlast hOrd hwit order2 passed2 h
    have hdsrest : ∀ d' ∈ rest, d' ∈ pkg.dependencies :=
      fun d' hd' => hds d' (List.mem_cons_of_mem d hd')
    cases hf : findDep packages pkg d with
    | none =>
      simp only [visit_deps, hf] at h
      have hwit' : ∃ d' ∈ rest, ∃ dep, findDep packages pkg d' = some dep ∧
          dep.name ∈ namesOf Av := by
        obtain ⟨d', hd', dep, hdep, hdepname⟩ := hwit
        rcases List.mem_cons.mp hd' with heq | hd'
        · rw [heq, hf] at hdep
          exact absurd hdep (by simp)
        · exact ⟨d', hd', dep, hdep, hdepname⟩
      exact ih hdsrest hanc hchain hlast hOrd hwit' order2 passed2 h
    | some dep =>
      have hdmem : d ∈ pkg.dependencies := hds d (List.mem_cons_self d rest)
      have hEdge : Edge packages pkg dep := ⟨d, hdmem, hf⟩
      have hdepmem : dep ∈ packages := findDep_mem hf
      have hdepcanon : canonical packages dep := findDep_canonical hf
      have hchain2 : List.Chain' (Edge packages) (Av ++ [dep]) := chain_extend hchain hlast hEdge
      cases hin : is_package_in dep passed with
      | true => simp [visit_deps, hf, hin] at h
      | false =>
        cases hr : inner dep order passed with
        | none => simp [visit_deps, hf, hin, hr] at h
        | some r =>
          cases r with
          | error e => simp [visit_deps, hf, hin, hr] at h
          | ok st =>
            obtain ⟨o1, p1⟩ := st
            simp only [visit_deps, hf, hin, Bool.false_eq_true, if_false, hr] at h
            by_cases hre : dep.name ∈ namesOf Av
            · exact absurd hr
                (hB dep order passed Av hdepmem hdepcanon hre hanc hchain2 hOrd o1 p1)
            · have hpost :=
                hA dep order passed Av o1 p1 hdepmem (Or.inl hdepcanon) hre hanc hchain2 hOrd hr
              obtain ⟨⟨ext1, he1, hext1⟩, _, _, hOrd1⟩ := hpost
              have hanc1 : AncInv packages Av o1 := by
                refine ⟨hanc.1, hanc.2.1, ?_⟩
                intro a ha hmem
                rw [he1, namesOf_append] at hmem
                rcases List.mem_append.mp hmem with hmem | hmem
                · exact hanc.2.2 a ha hmem
                · obtain ⟨q, hq, hqname⟩ := mem_namesOf.mp hmem
                  exact (hext1 q hq).2.2.2
                    (by rw [hqname]; exact mem_namesOf.mpr ⟨a, ha, rfl⟩)
              have hwit' : ∃ d' ∈ rest, ∃ dep', findDep packages pkg d' = some dep' ∧
                  dep'.name ∈ namesOf Av := by
                obtain ⟨d', hd', dep', hdep', hdepname'⟩ := hwit
                rcases List.mem_cons.mp hd' with heq | hd'
                · rw [heq, hf] at hdep'
                  have hdd : dep = dep' := Option.some_inj.mp hdep'
                  rw [← hdd] at hdepname'
                  exact absurd hdepname' hre
                · exact ⟨d', hd', dep', hdep', hdepname'⟩
              exact ih hdsrest hanc1 hchain hlast hOrd1 hwit' order2 passed2 h

theorem inner_AB (packages : List Package) :
    ∀ fuel, InnerA packages (release_order_inner packages fuel) ∧
      InnerB packages (release_order_inner packages fuel) := by
  intro fuel
  induction fuel with
  | zero =>
    constructor
    · intro pkg order passed A order2 passed2 _ _ _ _ _ _ h
      simp [release_order_inner] at h
    · intro pkg order passed A _ _ _ _ _ _ order2 passed2 h
      simp [release_order_inner] at h
  | succ fuel ih =>
    obtain ⟨ihA, ihB⟩ := ih
    constructor
    · intro pkg order passed A order2 passed2 hpm hpc hfresh hanc hchain hOrd h
      rw [release_order_inner_succ] at h
      cases hin : is_package_in pkg order with
      | true =>
        rw [hin] at h
        simp only [if_true, Option.some_inj, Except.ok.injEq, Prod.mk.injEq] at h
        obtain ⟨h1, h2⟩ := h
        subst h1
        subst h2
        exact ⟨⟨[], by simp, by simp⟩, is_package_in_iff.mp hin, Or.inl ⟨rfl, rfl⟩, hOrd⟩
      | false =>
        rw [hin] at h
        simp only [Bool.false_eq_true, if_false] at h
        have hnotin : pkg.name ∉ namesOf order := is_package_in_false_iff.mp hin
        have hcanon : canonical packages pkg := hpc.resolve_right hnotin
        cases hv : visit_deps packages (release_order_inner packages fuel) pkg
            pkg.dependencies order (passed ++ [pkg]) with
        | none => rw [hv] at h; exact absurd h (by simp)
        | some r =>
          cases r with
          | error e => rw [hv] at h; exact absurd h (by simp)
          | ok st =>
            obtain ⟨o1, p1⟩ := st
            rw [hv] at h
            have h' : some (Except.ok ((o1 ++ [pkg], ([] : List Package)) : RState)) =
                some (Except.ok (order2, passed2)) := h
            simp only [Option.some_inj, Except.ok.injEq, Prod.mk.injEq] at h'
            obtain ⟨ho2, hp2⟩ := h'
            have hanc1 : AncInv packages (A ++ [pkg]) order := by
              refine ⟨?_, ?_, ?_⟩
              · intro a ha
                rcases List.mem_append.mp ha with ha | ha
                · exact hanc.1 a ha
                · rw [List.mem_singleton.mp ha]; exact hpm
              · intro a ha
                rcases List.mem_append.mp ha with ha | ha
                · exact hanc.2.1 a ha
                · rw [List.mem_singleton.mp ha]; exact hcanon
              · intro a ha
                rcases List.mem_append.mp ha with ha | ha
                · exact hanc.2.2 a ha
                · rw [List.mem_singleton.mp ha]; exact hnotin
            have hlast : (A ++ [pkg]).getLast? = some pkg := List.getLast?_concat A
            have hpost := visit_deps_A ihA ihB hpm (fun d hd => hd) hanc1 hchain hlast hOrd hv
            obtain ⟨⟨ext1, he1, hext1⟩, hres, _, hOrd1⟩ := hpost
            have hneword : pkg.name ∉ namesOf o1 := by
              rw [he1, namesOf_append]
              intro hmem
              rcases List.mem_append.mp hmem with hmem | hmem
              · exact hnotin hmem
              · obtain ⟨q, hq, hqname⟩ := mem_namesOf.mp hmem
                exact (hext1 q hq).2.2.2
                  (by rw [hqname]; exact mem_namesOf.mpr ⟨pkg, by simp, rfl⟩)
            have hOrd2 : OrdInv packages (o1 ++ [pkg]) := by
              obtain ⟨hdb, hnd, hmem', hcan'⟩ := hOrd1
              refine ⟨depsBefore_append hdb hres, ?_, ?_, ?_⟩
              · rw [namesOf_append]
                rw [List.nodup_append]
                refine ⟨hnd, by simp [namesOf], ?_⟩
                intro x hx hx2
                simp only [namesOf, List.map_cons, List.map_nil, List.mem_singleton] at hx2
                rw [hx2] at hx
                exact hneword hx
              · intro p hp
                rcases List.mem_append.mp hp with hp | hp
                · exact hmem' p hp
                · rw [List.mem_singleton.mp hp]; exact hpm
              · intro p hp
                rcases List.mem_append.mp hp with hp | hp
                · exact hcan' p hp
                · rw [List.mem_singleton.mp hp]; exact hcanon
            refine ⟨⟨ext1 ++ [pkg], ?_, ?_⟩, ?_, Or.inr hp2.symm, ho2 ▸ hOrd2⟩
            · rw [← ho2, he1, List.append_assoc]
            · intro q hq
              rcases List.mem_append.mp hq with hq | hq
              · obtain ⟨hq1, hq2, hq3, hq4⟩ := hext1 q hq
                refine ⟨hq1, hq2, hq3.to_reflTransGen, ?_⟩
                intro hmem
                exact hq4 (namesOf_mono_left hmem)
              · rw [List.mem_singleton.mp hq]
                exact ⟨hpm, hcanon, Relation.ReflTransGen.refl, hfresh⟩
            · rw [← ho2, namesOf_append]
              refine List.mem_append_right _ ?_
              simp [namesOf]
    · intro pkg order passed A hpm hcanon hnameA hanc hchain hOrd order2 passed2 h
      obtain ⟨a, haA, haname⟩ := mem_namesOf.mp hnameA
      have hapkg : a = pkg := canonical_unique (hanc.2.1 a haA) hcanon haname
      have hpkgA : pkg ∈ A := hapkg ▸ haA
      have hnotord : pkg.name ∉ namesOf order := by
        rw [← haname]
        exact hanc.2.2 a haA
      have hin : is_package_in pkg order = false := is_package_in_false_iff.mpr hnotord
      rw [release_order_inner_succ, hin] at h
      simp only [Bool.false_eq_true, if_false] at h
      cases hv : visit_deps packages (release_order_inner packages fuel) pkg
          pkg.dependencies order (passed ++ [pkg]) with
      | none => rw [hv] at h; exact absurd h (by simp)
      | some r =>
        cases r with
        | error e => rw [hv] at h; exact absurd h (by simp)
        | ok st =>
          obtain ⟨o1, p1⟩ := st
          obtain ⟨b, hEb, hbmem⟩ := chain_succ hchain hpkgA
          obtain ⟨d, hd, hfind⟩ := hEb
          have hanc1 : AncInv packages (A ++ [pkg]) order := by
            refine ⟨?_, ?_, ?_⟩
            · intro x hx
              rcases List.mem_append.mp hx with hx | hx
              · exact hanc.1 x hx
              · rw [List.mem_singleton.mp hx]; exact hpm
            · intro x hx
              rcases List.mem_append.mp hx with hx | hx
              · exact hanc.2.1 x hx
              · rw [List.mem_singleton.mp hx]; exact hcanon
            · intro x hx
              rcases List.mem_append.mp hx with hx | hx
              · exact hanc.2.2 x hx
              · rw [List.mem_singleton.mp hx]; exact hnotord
          have hwit : ∃ d' ∈ pkg.dependencies, ∃ dep, findDep packages pkg d' = some dep ∧
              dep.name ∈ namesOf (A ++ [pkg]) :=
            ⟨d, hd, b, hfind, mem_namesOf.mpr ⟨b, hbmem, rfl⟩⟩
          exact visit_deps_B ihA ihB (fun d' hd' => hd') hanc1 hchain
            (List.getLast?_concat A) hOrd hwit o1 p1 hv

theorem ordInv_nil (packages : List Package) : OrdInv packages [] := by
  refine ⟨?_, ?_, ?_, ?_⟩
  · intro i hi
    simp at hi
  · simp [namesOf]
  · intro p hp
    exact absurd hp (List.not_mem_nil p)
  · intro p hp
    exact absurd hp (List.not_mem_nil p)

theorem ancInv_nil (packages order : List Package) : AncInv packages [] order := by
  refine ⟨?_, ?_, ?_⟩ <;> intro a ha <;> exact absurd ha (List.not_mem_nil a)

/-- Every package of the input collection is either canonical or preceded (in
the input list) by a package of the same name. -/
theorem canonical_or_earlier {pre rest : List Package} {p : Package} :
    canonical (pre ++ p :: rest) p ∨ ∃ q ∈ pre, q.name = p.name := by
  cases hq : pre.find? (fun q => q.name == p.name) with
  | some q =>
    refine Or.inr ⟨q, List.mem_of_find?_eq_some hq, ?_⟩
    have := List.find?_some hq
    exact beq_iff_eq.mp this
  | none =>
    refine Or.inl ?_
    rw [canonical, List.find?_append, hq]
    simp only [Option.none_or]
    exact find?_cons_pos (fun q => q.name == p.name) p rest (beq_self_eq_true _)

theorem loop_A (packages : List Package) (fuel : Nat) :
    ∀ {todo pre order passed order2 passed2 : List Package},
      packages = pre ++ todo →
      (∀ p ∈ pre, p.name ∈ namesOf order) →
      OrdInv packages order →
      release_order_loop packages fuel todo order passed = some (Except.ok (order2, passed2)) →
      OrdInv packages order2 ∧ (∃ ext, order2 = order ++ ext) ∧
        (∀ p ∈ todo, p.name ∈ namesOf order2) := by
  intro todo
  induction todo with
  | nil =>
    intro pre order passed order2 passed2 _ _ hOrd h
    simp only [release_order_loop, Option.some_inj, Except.ok.injEq, Prod.mk.injEq] at h
    obtain ⟨h1, h2⟩ := h
    subst h1
    refine ⟨hOrd, ⟨[], by simp⟩, ?_⟩
    intro p hp
    exact absurd hp (List.not_mem_nil p)
  | cons p rest ih =>
    intro pre order passed order2 passed2 hsplit hpre hOrd h
    have hpm : p ∈ packages := by
      rw [hsplit]
      exact List.mem_append_right pre (List.mem_cons_self p rest)
    have hpc : canonical packages p ∨ p.name ∈ namesOf order := by
      rcases (hsplit ▸ canonical_or_earlier :
          canonical packages p ∨ ∃ q ∈ pre, q.name = p.name) with hc | ⟨q, hq, hqname⟩
      · exact Or.inl hc
      · exact Or.inr (hqname ▸ hpre q hq)
    cases hi : release_order_inner packages fuel p order passed with
    | none => simp [release_order_loop, hi] at h
    | some r =>
      cases r with
      | error e => simp [release_order_loop, hi] at h
      | ok st =>
        obtain ⟨o1, p1⟩ := st
        simp only [release_order_loop, hi] at h
        have hpost := (inner_AB packages fuel).1 p order passed [] o1 p1 hpm hpc
          (by simp [namesOf]) (ancInv_nil packages order)
          (by exact List.chain'_singleton p) hOrd hi
        obtain ⟨⟨ext1, he1, _⟩, hpin, _, hOrd1⟩ := hpost
        have hpre1 : ∀ q ∈ pre ++ [p], q.name ∈ namesOf o1 := by
          intro q hq
          rcases List.mem_append.mp hq with hq | hq
          · rw [he1]
            exact namesOf_mono_left (hpre q hq)
          · rw [List.mem_singleton.mp hq]
            exact hpin
        have hsplit1 : packages = (pre ++ [p]) ++ rest := by
          rw [hsplit, List.append_assoc]
          simp
        obtain ⟨hOrd2, ⟨ext2, he2⟩, hrest⟩ := ih hsplit1 hpre1 hOrd1 h
        refine ⟨hOrd2, ⟨ext1 ++ ext2, by rw [he2, he1, List.append_assoc]⟩, ?_⟩
        intro q hq
        rcases List.mem_cons.mp hq with heq | hq
        · rw [heq, he2]
          exact namesOf_mono_left hpin
        · exact hrest q hq

/-- Unconditional facts about any successful run of `release_order`: the
result satisfies the order invariant and contains every input package name. -/
theorem release_order_A {packages : List Package} {fuel : Nat} {order : List Package}
    (h : release_order packages fuel = some (Except.ok order)) :
    OrdInv packages order ∧ ∀ p ∈ packages, p.name ∈ namesOf order := by
  cases hl : release_order_loop packages fuel packages [] [] with
  | none => simp [release_order, hl] at h
  | some r =>
    cases r with
    | error e => simp [release_order, hl] at h
    | ok st =>
      obtain ⟨o1, p1⟩ := st
      simp only [release_order, hl, Option.some_inj, Except.ok.injEq] at h
      subst h
      obtain ⟨hOrd, _, hall⟩ := loop_A packages fuel
        (show packages = [] ++ packages by simp)
        (show ∀ p ∈ ([] : List Package), p.name ∈ namesOf ([] : List Package) from
          fun p hp => absurd hp (List.not_mem_nil p))
        (ordInv_nil packages) hl
      exact ⟨hOrd, hall⟩

theorem visit_deps_D {packages : List Package}
    {inner : Package → List Package → List Package → Option (Except RError RState)}
    (hacyc : Acyclic packages)
    (hShape : InnerShape inner)
    (hD : ∀ pkg order passed, pkg ∈ packages →
      (canonical packages pkg ∨ pkg.name ∈ namesOf order) →
      (∀ r ∈ passed, canonical packages r) →
      List.Chain' (Edge packages) (passed ++ [pkg]) →
      ∀ e, inner pkg order passed ≠ some (Except.error e))
    {pkg : Package} :
    ∀ {ds : List String} {order ps : List Package},
      (∀ d ∈ ds, d ∈ pkg.dependencies) →
      (∀ r ∈ ps, canonical packages r) →
      List.Chain' (Edge packages) ps →
      (ps = [] ∨ ps.getLast? = some pkg) →
      ∀ e, visit_deps packages inner pkg ds order ps ≠ some (Except.error e) := by
  intro ds
  induction ds with
  | nil =>
    intro order ps _ _ _ _ e h
    simp [visit_deps] at h
  | cons d rest ih =>
    intro order ps hds hpsc hchain hlastd e h
    have hdmem : d ∈ pkg.dependencies := hds d (List.mem_cons_self d rest)
    have hdsrest : ∀ d' ∈ rest, d' ∈ pkg.dependencies :=
      fun d' hd' => hds d' (List.mem_cons_of_mem d hd')
    cases hf : findDep packages pkg d with
    | none =>
      simp only [visit_deps, hf] at h
      exact ih hdsrest hpsc hchain hlastd e h
    | some dep =>
      have hEdge : Edge packages pkg dep := ⟨d, hdmem, hf⟩
      have hdepmem : dep ∈ packages := findDep_mem hf
      have hdepcanon : canonical packages dep := findDep_canonical hf
      cases hin : is_package_in dep ps with
      | true =>
        exfalso
        obtain ⟨r, hr, hrname⟩ := mem_namesOf.mp (is_package_in_iff.mp hin)
        have hrdep : r = dep := canonical_unique (hpsc r hr) hdepcanon hrname
        have hdepps : dep ∈ ps := hrdep ▸ hr
        have hlast : ps.getLast? = some pkg := by
          rcases hlastd with hnil | hlast
          · rw [hnil] at hdepps
            exact absurd hdepps (List.not_mem_nil dep)
          · exact hlast
        have hreach : Relation.ReflTransGen (Edge packages) dep pkg :=
          chain_reach hchain hlast hdepps
        exact hacyc dep (Relation.TransGen.tail' hreach hEdge)
      | false =>
        cases hr : inner dep order ps with
        | none => simp [visit_deps, hf, hin, hr] at h
        | some r =>
          cases r with
          | error e' =>
            simp only [visit_deps, hf, hin, Bool.false_eq_true, if_false, hr,
              Option.some_inj] at h
            have hchain2 : List.Chain' (Edge packages) (ps ++ [dep]) := by
              rcases hlastd with hnil | hlast
              · rw [hnil]
                exact List.chain'_singleton dep
              · exact chain_extend hchain hlast hEdge
            exact hD dep order ps hdepmem (Or.inl hdepcanon) hpsc hchain2 e' hr
          | ok st =>
            obtain ⟨o1, p1⟩ := st
            simp only [visit_deps, hf, hin, Bool.false_eq_true, if_false, hr] at h
            obtain ⟨_, hdisj⟩ := hShape dep order ps o1 p1 hr
            rcases hdisj with ⟨_, hp1⟩ | ⟨hp1, _⟩
            · rw [hp1] at h
              exact ih hdsrest hpsc hchain hlastd e h
            · rw [hp1] at h
              refine ih hdsrest ?_ ?_ (Or.inl rfl) e h
              · intro x hx
                exact absurd hx (List.not_mem_nil x)
              · exact List.chain'_nil

theorem inner_D {packages : List Package} (hacyc : Acyclic packages) :
    ∀ fuel pkg order passed, pkg ∈ packages →
      (canonical packages pkg ∨ pkg.name ∈ namesOf order) →
      (∀ r ∈ passed, canonical packages r) →
      List.Chain' (Edge packages) (passed ++ [pkg]) →
      ∀ e, release_order_inner packages fuel pkg order passed ≠ some (Except.error e) := by
  intro fuel
  induction fuel with
  | zero =>
    intro pkg order passed _ _ _ _ e h
    simp [release_order_inner] at h
  | succ fuel ih =>
    intro pkg order passed hpm hpc hpsc hchain e h
    rw [release_order_inner_succ] at h
    cases hin : is_package_in pkg order with
    | true =>
      rw [hin] at h
      simp at h
    | false =>
      rw [hin] at h
      simp only [Bool.false_eq_true, if_false] at h
      have hcanon : canonical packages pkg :=
        hpc.resolve_right (is_package_in_false_iff.mp hin)
      cases hv : visit_deps packages (release_order_inner packages fuel) pkg
          pkg.dependencies order (passed ++ [pkg]) with
      | none => rw [hv] at h; exact absurd h (by simp)
      | some r =>
        cases r with
        | error e' =>
          rw [hv] at h
          have hpsc2 : ∀ r ∈ passed ++ [pkg], canonical packages r := by
            intro r hrr
            rcases List.mem_append.mp hrr with hrr | hrr
            · exact hpsc r hrr
            · rw [List.mem_singleton.mp hrr]
              exact hcanon
          exact visit_deps_D hacyc (release_order_inner_shape packages fuel) ih
            (fun d' hd' => hd') hpsc2 hchain (Or.inr (List.getLast?_concat passed)) e' hv
        | ok st =>
          obtain ⟨o1, p1⟩ := st
          rw [hv] at h
          exact absurd h (by simp)

theorem loop_D {packages : List Package} (hacyc : Acyclic packages) (fuel : Nat) :
    ∀ {todo pre order : List Package},
      packages = pre ++ todo →
      (∀ p ∈ pre, p.name ∈ namesOf order) →
      OrdInv packages order →
      ∀ e, release_order_loop packages fuel todo order [] ≠ some (Except.error e) := by
  intro todo
  induction todo with
  | nil =>
    intro pre order _ _ _ e h
    simp [release_order_loop] at h
  | cons p rest ih =>
    intro pre order hsplit hpre hOrd e h
    have hpm : p ∈ packages := by
      rw [hsplit]
      exact List.mem_append_right pre (List.mem_cons_self p rest)
    have hpc : canonical packages p ∨ p.name ∈ namesOf order := by
      rcases (hsplit ▸ canonical_or_earlier :
          canonical packages p ∨ ∃ q ∈ pre, q.name = p.name) with hc | ⟨q, hq, hqname⟩
      · exact Or.inl hc
      · exact Or.inr (hqname ▸ hpre q hq)
    cases hi : release_order_inner packages fuel p order [] with
    | none => simp [release_order_loop, hi] at h
    | some r =>
      cases r with
      | error e' =>
        simp only [release_order_loop, hi, Option.some_inj] at h
        refine inner_D hacyc fuel p order [] hpm hpc ?_ ?_ e' hi
        · intro x hx
          exact absurd hx (List.not_mem_nil x)
        · exact List.chain'_singleton p
      | ok st =>
        obtain ⟨o1, p1⟩ := st
        simp only [release_order_loop, hi] at h
        have hpost := (inner_AB packages fuel).1 p order [] [] o1 p1 hpm hpc
          (by simp [namesOf]) (ancInv_nil packages order)
          (by exact List.chain'_singleton p) hOrd hi
        obtain ⟨⟨ext1, he1, _⟩, hpin, hpassd, hOrd1⟩ := hpost
        have hp1 : p1 = [] := by
          rcases hpassd with ⟨_, hp⟩ | hp
          · exact hp
          · exact hp
        rw [hp1] at h
        have hpre1 : ∀ q ∈ pre ++ [p], q.name ∈ namesOf o1 := by
          intro q hq
          rcases List.mem_append.mp hq with hq | hq
          · rw [he1]
            exact namesOf_mono_left (hpre q hq)
          · rw [List.mem_singleton.mp hq]
            exact hpin
        have hsplit1 : packages = (pre ++ [p]) ++ rest := by
          rw [hsplit, List.append_assoc]
          simp
        exact ih hsplit1 hpre1 hOrd1 e h

theorem release_order_D {packages : List Package} (hacyc : Acyclic packages) (fuel : Nat) :
    ∀ e, release_order packages fuel ≠ some (Except.error e) := by
  intro e h
  cases hl : release_order_loop packages fuel packages [] [] with
  | none => simp [release_order, hl] at h
  | some r =>
    cases r with
    | error e' =>
      refine loop_D hacyc fuel (show packages = [] ++ packages by simp)
        (show ∀ p ∈ ([] : List Package), p.name ∈ namesOf ([] : List Package) from
          fun p hp => absurd hp (List.not_mem_nil p))
        (ordInv_nil packages) e' hl
    | ok st =>
      obtain ⟨o1, p1⟩ := st
      simp [release_order, hl] at h

theorem length_le_of_names {packages l : List Package}
    (hnd : (namesOf l).Nodup) (hmem : ∀ p ∈ l, p ∈ packages) :
    l.length ≤ packages.length := by
  have hsub : namesOf l ⊆ namesOf packages := by
    intro n hn
    obtain ⟨p, hp, hpn⟩ := mem_namesOf.mp hn
    exact mem_namesOf.mpr ⟨p, hmem p hp, hpn⟩
  have := (List.subperm_of_subset hnd hsub).length_le
  simpa [namesOf] using this

theorem cvisit_exists (packages : List Package) (pkg : Package) (Av order0 ps0 : List Package)
    (_hpm : pkg ∈ packages)
    (hchainAv : List.Chain' (Edge packages) Av)
    (hlastAv : Av.getLast? = some pkg)
    (HI1 : ∀ pkg' order' passed' A',
      CInv packages pkg' order' passed' A' → order0.length < order'.length →
      ∃ fuel, (release_order_inner packages fuel pkg' order' passed').isSome)
    (HI2 : ∀ pkg' A',
      CInv packages pkg' order0 ps0 A' →
      ∃ fuel, (release_order_inner packages fuel pkg' order0 ps0).isSome) :
    ∀ ds : List String, (∀ d ∈ ds, d ∈ pkg.dependencies) →
      ∀ order' ps' : List Package,
        ((order' = order0 ∧ ps' = ps0) ∨ (ps' = [] ∧ order0.length < order'.length)) →
        AncInv packages Av order' →
        OrdInv packages order' →
        (∀ r ∈ ps', r ∈ packages) →
        (∀ r ∈ ps', canonical packages r) →
        (namesOf ps').Nodup →
        ∃ fuel,
          (visit_deps packages (release_order_inner packages fuel) pkg ds order' ps').isSome := by
  intro ds
  induction ds with
  | nil =>
    intro _ order' ps' _ _ _ _ _ _
    exact ⟨0, by simp [visit_deps]⟩
  | cons d rest ih =>
    intro hds order' ps' hstate hanc hOrd hpsm hpsc hpsnd
    have hdmem : d ∈ pkg.dependencies := hds d (List.mem_cons_self d rest)
    have hdsrest : ∀ d' ∈ rest, d' ∈ pkg.dependencies :=
      fun d' hd' => hds d' (List.mem_cons_of_mem d hd')
    cases hf : findDep packages pkg d with
    | none =>
      obtain ⟨F, hF⟩ := ih hdsrest order' ps' hstate hanc hOrd hpsm hpsc hpsnd
      refine ⟨F, ?_⟩
      simp only [visit_deps, hf]
      exact hF
    | some dep =>
      have hEdge : Edge packages pkg dep := ⟨d, hdmem, hf⟩
      have hdepmem : dep ∈ packages := findDep_mem hf
      have hdepcanon : canonical packages dep := findDep_canonical hf
      have hchain2 : List.Chain' (Edge packages) (Av ++ [dep]) :=
        chain_extend hchainAv hlastAv hEdge
      cases hin : is_package_in dep ps' with
      | true =>
        exact ⟨0, by simp [visit_deps, hf, hin]⟩
      | false =>
        have hCInv : CInv packages dep order' ps' Av :=
          ⟨hdepmem, Or.inl hdepcanon, hanc, hchain2, hOrd, hpsm, hpsc, hpsnd,
            is_package_in_false_iff.mp hin⟩
        have hex : ∃ fuel, (release_order_inner packages fuel dep order' ps').isSome := by
          rcases hstate with ⟨ho, hp⟩ | ⟨hp, hlen⟩
          · subst ho; subst hp
            exact HI2 dep Av hCInv
          · exact HI1 dep order' ps' Av hCInv hlen
        obtain ⟨f1, hf1⟩ := hex
        cases hr : release_order_inner packages f1 dep order' ps' with
        | none => rw [hr] at hf1; simp at hf1
        | some r =>
          cases r with
          | error e =>
            refine ⟨f1, ?_⟩
            simp only [visit_deps, hf, hin, Bool.false_eq_true, if_false, hr]
            simp
          | ok st =>
            obtain ⟨o1, p1⟩ := st
            have hpost := (inner_AB packages f1).1 dep order' ps' Av o1 p1 hdepmem
              (Or.inl hdepcanon) ?hre hanc hchain2 hOrd hr
            case hre =>
              by_contra hre
              exact (inner_AB packages f1).2 dep order' ps' Av hdepmem hdepcanon hre hanc
                hchain2 hOrd o1 p1 hr
            obtain ⟨⟨ext1, he1, hext1⟩, hdepin, _, hOrd1⟩ := hpost
            have hshape := release_order_inner_shape packages f1 dep order' ps' o1 p1 hr
            have hanc1 : AncInv packages Av o1 := by
              refine ⟨hanc.1, hanc.2.1, ?_⟩
              intro a ha hmem
              rw [he1, namesOf_append] at hmem
              rcases List.mem_append.mp hmem with hmem | hmem
              · exact hanc.2.2 a ha hmem
              · obtain ⟨q, hq, hqname⟩ := mem_namesOf.mp hmem
                exact (hext1 q hq).2.2.2
                  (by rw [hqname]; exact mem_namesOf.mpr ⟨a, ha, rfl⟩)
            have hnext : ∃ fuel,
                (visit_deps packages (release_order_inner packages fuel) pkg rest o1 p1).isSome := by
              rcases hshape.2 with ⟨ho1, hp1⟩ | ⟨hp1, hlen1⟩
              · subst ho1; subst hp1
                exact ih hdsrest o1 p1 hstate hanc1 hOrd1 hpsm hpsc hpsnd
              · subst hp1
                refine ih hdsrest o1 [] ?_ hanc1 hOrd1 ?_ ?_ ?_
                · refine Or.inr ⟨rfl, ?_⟩
                  rcases hstate with ⟨ho, _⟩ | ⟨_, hlen⟩
                  · rw [← ho]; exact hlen1
                  · exact Nat.lt_trans hlen hlen1
                · intro x hx; exact absurd hx (List.not_mem_nil x)
                · intro x hx; exact absurd hx (List.not_mem_nil x)
                · simp [namesOf]
            obtain ⟨F2, hF2⟩ := hnext
            obtain ⟨r2, hr2⟩ := Option.isSome_iff_exists.mp hF2
            refine ⟨max f1 F2, ?_⟩
            have hrF : release_order_inner packages (max f1 F2) dep order' ps' =
                some (Except.ok (o1, p1)) :=
              release_order_inner_le (Nat.le_max_left f1 F2) dep order' ps' _ hr
            have hF2' : visit_deps packages (release_order_inner packages (max f1 F2)) pkg
                rest o1 p1 = some r2 :=
              visit_deps_mono (release_order_inner_le (Nat.le_max_right f1 F2)) hr2
            simp only [visit_deps, hf, hin, Bool.false_eq_true, if_false, hrF, hF2']
            simp

theorem cinner_exists (packages : List Package) :
    ∀ N1 N2 : Nat, ∀ pkg : Package, ∀ order passed A : List Package,
      CInv packages pkg order passed A →
      packages.length - order.length < N1 →
      packages.length + 1 - passed.length < N2 →
      ∃ fuel, (release_order_inner packages fuel pkg order passed).isSome := by
  intro N1
  induction N1 with
  | zero =>
    intro N2 pkg order passed A _ h1 _
    omega
  | succ N1 ih1 =>
    intro N2
    induction N2 with
    | zero =>
      intro pkg order passed A _ _ h2
      omega
    | succ N2 ih2 =>
      intro pkg order passed A hinv h1 h2
      obtain ⟨hpm, hpc, hanc, hchain, hOrd, hpsm, hpsc, hpsnd, hpfresh⟩ := hinv
      cases hin : is_package_in pkg order with
      | true =>
        refine ⟨1, ?_⟩
        show (release_order_inner packages (0 + 1) pkg order passed).isSome
        rw [release_order_inner_succ, hin]
        simp
      | false =>
        have hnotin := is_package_in_false_iff.mp hin
        have hcanon := hpc.resolve_right hnotin
        have hplen : passed.length ≤ packages.length := length_le_of_names hpsnd hpsm
        have holen : order.length ≤ packages.length :=
          length_le_of_names hOrd.2.1 hOrd.2.2.1
        have hps0m : ∀ r ∈ passed ++ [pkg], r ∈ packages := by
          intro r hr
          rcases List.mem_append.mp hr with hr | hr
          · exact hpsm r hr
          · rw [List.mem_singleton.mp hr]; exact hpm
        have hps0c : ∀ r ∈ passed ++ [pkg], canonical packages r := by
          intro r hr
          rcases List.mem_append.mp hr with hr | hr
          · exact hpsc r hr
          · rw [List.mem_singleton.mp hr]; exact hcanon
        have hps0nd : (namesOf (passed ++ [pkg])).Nodup := by
          rw [namesOf_append, List.nodup_append]
          refine ⟨hpsnd, by simp [namesOf], ?_⟩
          intro x hx hx2
          simp only [namesOf, List.map_cons, List.map_nil, List.mem_singleton] at hx2
          rw [hx2] at hx
          exact hpfresh hx
        have hanc1 : AncInv packages (A ++ [pkg]) order := by
          refine ⟨?_, ?_, ?_⟩
          · intro a ha
            rcases List.mem_append.mp ha with ha | ha
            · exact hanc.1 a ha
            · rw [List.mem_singleton.mp ha]; exact hpm
          · intro a ha
            rcases List.mem_append.mp ha with ha | ha
            · exact hanc.2.1 a ha
            · rw [List.mem_singleton.mp ha]; exact hcanon
          · intro a ha
            rcases List.mem_append.mp ha with ha | ha
            · exact hanc.2.2 a ha
            · rw [List.mem_singleton.mp ha]; exact hnotin
        have HI1 : ∀ pkg' : Package, ∀ order' passed' A' : List Package,
            CInv packages pkg' order' passed' A' → order.length < order'.length →
            ∃ fuel, (release_order_inner packages fuel pkg' order' passed').isSome := by
          intro pkg' order' passed' A' hinv' hlen
          have holen' : order'.length ≤ packages.length :=
            length_le_of_names hinv'.2.2.2.2.1.2.1 hinv'.2.2.2.2.1.2.2.1
          refine ih1 (packages.length + 2) pkg' order' passed' A' hinv' (by omega) (by omega)
        have HI2 : ∀ pkg' : Package, ∀ A' : List Package,
            CInv packages pkg' order (passed ++ [pkg]) A' →
            ∃ fuel,
              (release_order_inner packages fuel pkg' order (passed ++ [pkg])).isSome := by
          intro pkg' A' hinv'
          refine ih2 pkg' order (passed ++ [pkg]) A' hinv' h1 ?_
          have : (passed ++ [pkg]).length = passed.length + 1 := by simp
          omega
        obtain ⟨F, hF⟩ := cvisit_exists packages pkg (A ++ [pkg]) order (passed ++ [pkg])
          hpm hchain (List.getLast?_concat A) HI1 HI2 pkg.dependencies
          (fun d hd => hd) order (passed ++ [pkg]) (Or.inl ⟨rfl, rfl⟩)
          hanc1 hOrd hps0m hps0c hps0nd
        obtain ⟨r, hr⟩ := Option.isSome_iff_exists.mp hF
        refine ⟨F + 1, ?_⟩
        rw [release_order_inner_succ, hin]
        simp only [Bool.false_eq_true, if_false, hr]
        cases r with
        | error e => simp
        | ok st =>
          obtain ⟨o1, p1⟩ := st
          simp

theorem loop_exists (packages : List Package) :
    ∀ todo pre order : List Package,
      packages = pre ++ todo →
      (∀ p ∈ pre, p.name ∈ namesOf order) →
      OrdInv packages order →
      ∃ fuel r, release_order_loop packages fuel todo order [] = some r := by
  intro todo
  induction todo with
  | nil =>
    intro pre order _ _ _
    exact ⟨0, Except.ok (order, []), rfl⟩
  | cons p rest ih =>
    intro pre order hsplit hpre hOrd
    have hpm : p ∈ packages := by
      rw [hsplit]
      exact List.mem_append_right pre (List.mem_cons_self p rest)
    have hpc : canonical packages p ∨ p.name ∈ namesOf order := by
      rcases (hsplit ▸ canonical_or_earlier :
          canonical packages p ∨ ∃ q ∈ pre, q.name = p.name) with hc | ⟨q, hq, hqname⟩
      · exact Or.inl hc
      · exact Or.inr (hqname ▸ hpre q hq)
    have hinv : CInv packages p order [] [] := by
      refine ⟨hpm, hpc, ancInv_nil packages order, ?_, hOrd, ?_, ?_, ?_, ?_⟩
      · exact List.chain'_singleton p
      · intro x hx; exact absurd hx (List.not_mem_nil x)
      · intro x hx; exact absurd hx (List.not_mem_nil x)
      · simp [namesOf]
      · simp [namesOf]
    obtain ⟨f1, hf1⟩ := cinner_exists packages (packages.length - order.length + 1)
      (packages.length + 2) p order [] [] hinv (by omega) (by simp)
    obtain ⟨r1, hr1⟩ := Option.isSome_iff_exists.mp hf1
    cases r1 with
    | error e =>
      refine ⟨f1, Except.error e, ?_⟩
      simp only [release_order_loop, hr1]
    | ok st =>
      obtain ⟨o1, p1⟩ := st
      have hpost := (inner_AB packages f1).1 p order [] [] o1 p1 hpm hpc
        (by simp [namesOf]) (ancInv_nil packages order)
        (by exact List.chain'_singleton p) hOrd hr1
      obtain ⟨⟨ext1, he1, _⟩, hpin, hpassd, hOrd1⟩ := hpost
      have hp1 : p1 = [] := by
        rcases hpassd with ⟨_, hp⟩ | hp
        · exact hp
        · exact hp
      subst hp1
      have hpre1 : ∀ q ∈ pre ++ [p], q.name ∈ namesOf o1 := by
        intro q hq
        rcases List.mem_append.mp hq with hq | hq
        · rw [he1]
          exact namesOf_mono_left (hpre q hq)
        · rw [List.mem_singleton.mp hq]
          exact hpin
      have hsplit1 : packages = (pre ++ [p]) ++ rest := by
        rw [hsplit, List.append_assoc]
        simp
      obtain ⟨f2, r2, hf2⟩ := ih (pre ++ [p]) o1 hsplit1 hpre1 hOrd1
      refine ⟨max f1 f2, r2, ?_⟩
      have hr1' : release_order_inner packages (max f1 f2) p order [] =
          some (Except.ok (o1, [])) :=
        release_order_inner_le (Nat.le_max_left f1 f2) p order [] _ hr1
      have hf2' : release_order_loop packages (max f1 f2) rest o1 [] = some r2 :=
        release_order_loop_mono (Nat.le_max_right f1 f2) hf2
      simp only [release_order_loop, hr1', hf2']

/-- The resolver terminates on every finite input: some fuel yields a defined
result, and the result is stable under adding more fuel. -/
theorem release_order_terminates (packages : List Package) :
    ∃ fuel r, release_order packages fuel = some r ∧
      ∀ fuel', fuel ≤ fuel' → release_order packages fuel' = some r := by
  obtain ⟨f, r, hf⟩ := loop_exists packages packages [] []
    (by simp)
    (fun p hp => absurd hp (List.not_mem_nil p))
    (ordInv_nil packages)
  cases r with
  | error e =>
    refine ⟨f, Except.error e, ?_, ?_⟩
    · simp only [release_order, hf]
    · intro f' h
      exact release_order_mono h (by simp only [release_order, hf])
  | ok st =>
    obtain ⟨o1, p1⟩ := st
    refine ⟨f, Except.ok o1, ?_, ?_⟩
    · simp only [release_order, hf]
    · intro f' h
      exact release_order_mono h (by simp only [release_order, hf])

theorem indexOf_lt_of_mem_take {n : String} :
    ∀ {l : List String} {i : Nat}, n ∈ l.take i → List.indexOf n l < i := by
  intro l
  induction l with
  | nil => intro i h; simp at h
  | cons a t ih =>
    intro i h
    cases i with
    | zero => simp at h
    | succ i =>
      rw [List.take_succ_cons] at h
      by_cases hna : n = a
      · rw [hna, List.indexOf_cons_self]
        omega
      · rcases List.mem_cons.mp h with heq | h
        · exact absurd heq hna
        · rw [List.indexOf_cons_ne t (Ne.symm hna)]
          exact Nat.succ_lt_succ (ih h)

theorem transGen_target {packages : List Package} {x y : Package}
    (h : Relation.TransGen (Edge packages) x y) :
    y ∈ packages ∧ canonical packages y := by
  induction h with
  | single hE => exact ⟨(edge_target hE).1, (edge_target hE).2.1⟩
  | tail _ hE _ => exact ⟨(edge_target hE).1, (edge_target hE).2.1⟩

theorem edge_index_lt {packages order : List Package}
    (hOrd : OrdInv packages order)
    (hall : ∀ p ∈ packages, p.name ∈ namesOf order)
    {x y : Package} (hx : canonical packages x) (hxm : x ∈ packages)
    (hE : Edge packages x y) :
    List.indexOf y.name (namesOf order) < List.indexOf x.name (namesOf order) := by
  obtain ⟨hdb, hnd, hmem, hcanon⟩ := hOrd
  have hxin : x.name ∈ namesOf order := hall x hxm
  have hi : List.indexOf x.name (namesOf order) < (namesOf order).length :=
    List.indexOf_lt_length.mpr hxin
  have hlen : (namesOf order).length = order.length := by simp [namesOf]
  have hi' : List.indexOf x.name (namesOf order) < order.length := hlen ▸ hi
  have hentry_name : (order.get ⟨List.indexOf x.name (namesOf order), hi'⟩).name = x.name := by
    have hg := List.indexOf_get hi
    simp only [namesOf, List.get_eq_getElem, List.getElem_map] at hg
    simp only [List.get_eq_getElem]
    exact hg
  have hentry : order.get ⟨List.indexOf x.name (namesOf order), hi'⟩ = x :=
    canonical_unique
      (hcanon _ (List.get_mem order (List.indexOf x.name (namesOf order)) hi')) hx hentry_name
  obtain ⟨d, hd, hfind⟩ := hE
  have hdb' := hdb (List.indexOf x.name (namesOf order)) hi' d (by rw [hentry]; exact hd)
    y (by rw [hentry]; exact hfind)
  have hmemtake : y.name ∈ (namesOf order).take (List.indexOf x.name (namesOf order)) := by
    rw [show namesOf order = order.map Package.name from rfl, ← List.map_take]
    exact hdb'
  exact indexOf_lt_of_mem_take hmemtake

theorem transGen_index_lt {packages order : List Package}
    (hOrd : OrdInv packages order)
    (hall : ∀ p ∈ packages, p.name ∈ namesOf order) :
    ∀ {x y : Package}, Relation.TransGen (Edge packages) x y →
      canonical packages x → x ∈ packages →
      List.indexOf y.name (namesOf order) < List.indexOf x.name (namesOf order) := by
  intro x y h
  induction h with
  | single hE =>
    intro hx hxm
    exact edge_index_lt hOrd hall hx hxm hE
  | tail hxy hE ih =>
    intro hx hxm
    have hb := transGen_target hxy
    exact Nat.lt_trans (edge_index_lt hOrd hall hb.2 hb.1 hE) (ih hx hxm)

/-- A successful run certifies acyclicity of the in-scope dependency graph. -/
theorem release_order_ok_acyclic {packages : List Package} {fuel : Nat}
    {order : List Package}
    (h : release_order packages fuel = some (Except.ok order)) : Acyclic packages := by
  obtain ⟨hOrd, hall⟩ := release_order_A h
  intro p hp
  have hprops := transGen_target hp
  exact absurd (transGen_index_lt hOrd hall hp hprops.2 hprops.1) (lt_irrefl _)

/-- On an acyclic input the resolver succeeds; the successful order satisfies
the order invariant and mentions every input package name. -/
theorem release_order_acyclic_ok {packages : List Package} (hacyc : Acyclic packages) :
    ∃ fuel order, release_order packages fuel = some (Except.ok order) ∧
      OrdInv packages order ∧ ∀ p ∈ packages, p.name ∈ namesOf order := by
  obtain ⟨fuel, r, hr, _⟩ := release_order_terminates packages
  cases r with
  | error e => exact absurd hr (release_order_D hacyc fuel e)
  | ok order =>
    exact ⟨fuel, order, hr, (release_order_A hr).1, (release_order_A hr).2⟩

theorem acyclic_of_deps_nil {packages : List Package}
    (h : ∀ p ∈ packages, p.dependencies = []) : Acyclic packages := by
  intro p hp
  have hpm : p ∈ packages := (transGen_target hp).1
  obtain ⟨c, hEc, _⟩ := Relation.TransGen.head'_iff.mp hp
  obtain ⟨d, hd, _⟩ := hEc
  rw [h p hpm] at hd
  exact absurd hd (List.not_mem_nil d)

theorem edge_cycA_cycB : Edge [cycA, cycB] cycA cycB :=
  ⟨"B", List.mem_singleton_self ("B"), rfl⟩

theorem edge_cycB_cycA : Edge [cycA, cycB] cycB cycA :=
  ⟨"A", List.mem_singleton_self ("A"), rfl⟩

theorem cycle_cycAB : Relation.TransGen (Edge [cycA, cycB]) cycA cycA :=
  Relation.TransGen.head edge_cycA_cycB (Relation.TransGen.single edge_cycB_cycA)

/-- Claim C1: for every input package collection whose in-scope dependency
graph (edges derived by name matching, excluding self-matches and names not
present in the collection) is acyclic, `release_order` returns Ok, and for
every package `p` in the returned sequence and every in-scope dependency `d`
of `p`, `d` appears (by name) before `p` in the sequence. -/
theorem claim_C1 (packages : List Package) (hacyc : Acyclic packages) :
    ∃ fuel order, release_order packages fuel = some (Except.ok order) ∧
      ∀ i (h : i < order.length), ∀ d ∈ (order.get ⟨i, h⟩).dependencies,
        ∀ dep, findDep packages (order.get ⟨i, h⟩) d = some dep →
          dep.name ∈ namesOf (order.take i) := by
  obtain ⟨fuel, order, hok, hOrd, _⟩ := release_order_acyclic_ok hacyc
  exact ⟨fuel, order, hok, hOrd.1⟩

theorem claim_C1_witness :
    ∃ fuel order, release_order [pkgA] fuel = some (Except.ok order) ∧
      ∀ i (h : i < order.length), ∀ d ∈ (order.get ⟨i, h⟩).dependencies,
        ∀ dep, findDep [pkgA] (order.get ⟨i, h⟩) d = some dep →
          dep.name ∈ namesOf (order.take i) :=
  claim_C1 [pkgA] (acyclic_of_deps_nil (by
    intro p hp
    rw [List.mem_singleton.mp hp]
    rfl))

/-- Claim C2: a cyclic in-scope dependency graph is rejected: `release_order`
never returns an ordered sequence and, on some fuel, returns the
circular-dependency error; in particular, the two-package input where `A`
depends on `B` and `B` depends on `A` yields an error referencing both `A`
and `B`. -/
theorem claim_C2 :
    (∀ packages : List Package, (∃ p, Relation.TransGen (Edge packages) p p) →
      (∀ fuel order, release_order packages fuel ≠ some (Except.ok order)) ∧
      (∃ fuel a b, release_order packages fuel = some (Except.error (RError.circular a b)))) ∧
    release_order [cycA, cycB] 4 = some (Except.error (RError.circular ("A") ("B"))) := by
  constructor
  · intro packages hcyc
    obtain ⟨p, hp⟩ := hcyc
    constructor
    · intro fuel order hok
      exact absurd hp (release_order_ok_acyclic hok p)
    · obtain ⟨fuel, r, hr, _⟩ := release_order_terminates packages
      cases r with
      | ok order => exact absurd hp (release_order_ok_acyclic hr p)
      | error e =>
        cases e with
        | circular a b => exact ⟨fuel, a, b, hr⟩
  · rfl

theorem claim_C2_witness :
    (∀ fuel order, release_order [cycA, cycB] fuel ≠ some (Except.ok order)) ∧
    (∃ fuel a b,
      release_order [cycA, cycB] fuel = some (Except.error (RError.circular a b))) :=
  claim_C2.1 [cycA, cycB] ⟨cycA, cycle_cycAB⟩

/-- Claim C3: on an input collection with pairwise-distinct names whose
in-scope dependency graph is acyclic, every input package appears exactly once
in the sequence returned by `release_order`. -/
theorem claim_C3 (packages : List Package) (hnd : (namesOf packages).Nodup)
    (hacyc : Acyclic packages) :
    ∃ fuel order, release_order packages fuel = some (Except.ok order) ∧
      ∀ p ∈ packages, order.count p = 1 := by
  obtain ⟨fuel, order, hok, hOrd, hall⟩ := release_order_acyclic_ok hacyc
  refine ⟨fuel, order, hok, ?_⟩
  intro p hp
  obtain ⟨q, hq, hqname⟩ := mem_namesOf.mp (hall p hp)
  have hqm : q ∈ packages := hOrd.2.2.1 q hq
  have hqp : q = p := List.inj_on_of_nodup_map hnd hqm hp hqname
  have hpord : p ∈ order := hqp ▸ hq
  exact List.count_eq_one_of_mem (List.Nodup.of_map Package.name hOrd.2.1) hpord

theorem claim_C3_witness :
    ∃ fuel order, release_order [pkgA] fuel = some (Except.ok order) ∧
      ∀ p ∈ [pkgA], order.count p = 1 :=
  claim_C3 [pkgA] (by decide)
    (acyclic_of_deps_nil (by
      intro p hp
      rw [List.mem_singleton.mp hp]
      rfl))

/-- Claim C4: `release_order` terminates on every finite input: some fuel
yields a defined result that is stable under adding fuel; on a cyclic input
it terminates with an error rather than recursing unboundedly. -/
theorem claim_C4 :
    (∀ packages : List Package, ∃ fuel r, release_order packages fuel = some r ∧
      ∀ fuel', fuel ≤ fuel' → release_order packages fuel' = some r) ∧
    (∀ packages : List Package, (∃ p, Relation.TransGen (Edge packages) p p) →
      ∃ fuel e, release_order packages fuel = some (Except.error e)) := by
  constructor
  · exact release_order_terminates
  · intro packages hcyc
    obtain ⟨p, hp⟩ := hcyc
    obtain ⟨fuel, r, hr, _⟩ := release_order_terminates packages
    cases r with
    | ok order => exact absurd hp (release_order_ok_acyclic hr p)
    | error e => exact ⟨fuel, e, hr⟩

theorem claim_C4_witness :
    ∃ fuel e, release_order [cycA, cycB] fuel = some (Except.error e) :=
  claim_C4.2 [cycA, cycB] ⟨cycA, cycle_cycAB⟩

/-- Claim C5: whenever the visit procedure finishes processing a package and
appends it to the result, it empties the entire on-path marker vector
(`passed.clear()`); the only other successful outcome is the early return,
which leaves both vectors untouched. -/
theorem claim_C5 (packages : List Package) (fuel : Nat) (pkg : Package)
    (order passed order2 passed2 : List Package)
    (h : release_order_inner packages fuel pkg order passed =
      some (Except.ok (order2, passed2))) :
    (is_package_in pkg order = true ∧ order2 = order ∧ passed2 = passed) ∨
    (passed2 = [] ∧ ∃ pre, order2 = pre ++ [pkg]) := by
  cases fuel with
  | zero => simp [release_order_inner] at h
  | succ fuel =>
    rw [release_order_inner_succ] at h
    cases hin : is_package_in pkg order with
    | true =>
      rw [hin] at h
      simp only [if_true, Option.some_inj, Except.ok.injEq, Prod.mk.injEq] at h
      exact Or.inl ⟨rfl, h.1.symm, h.2.symm⟩
    | false =>
      rw [hin] at h
      simp only [Bool.false_eq_true, if_false] at h
      cases hv : visit_deps packages (release_order_inner packages fuel) pkg
          pkg.dependencies order (passed ++ [pkg]) with
      | none => rw [hv] at h; exact absurd h (by simp)
      | some r =>
        cases r with
        | error e => rw [hv] at h; exact absurd h (by simp)
        | ok st =>
          obtain ⟨o1, p1⟩ := st
          rw [hv] at h
          have h' : some (Except.ok ((o1 ++ [pkg], ([] : List Package)) : RState)) =
              some (Except.ok (order2, passed2)) := h
          simp only [Option.some_inj, Except.ok.injEq, Prod.mk.injEq] at h'
          exact Or.inr ⟨h'.2.symm, o1, h'.1.symm⟩

theorem claim_C5_witness :
    (is_package_in pkgA [] = true ∧ [pkgA] = [] ∧ ([] : List Package) = [pkgX]) ∨
    (([] : List Package) = [] ∧ ∃ pre, [pkgA] = pre ++ [pkgA]) :=
  claim_C5 [pkgA] 1 pkgA [] [pkgX] [pkgA] [] rfl

/-- Claim C6: the resolver iterates root packages in input order and descends
into dependencies in declared order; for input `[C, B, A]` where `A` has no
dependencies and `B`, `C` depend on `A`, the result is exactly `[A, C, B]`. -/
theorem claim_C6 :
    release_order [pkgC, pkgB, pkgA] 5 = some (Except.ok [pkgA, pkgC, pkgB]) :=
  rfl

/-- Claim C7: a dependency entry naming the depending package itself
contributes no edge (the lookup always fails) and never causes an error: a
package `A` declaring `A` among its dependencies resolves to `[A]`. -/
theorem claim_C7 :
    (∀ (packages : List Package) (pkg : Package), findDep packages pkg pkg.name = none) ∧
    release_order [selfA] 2 = some (Except.ok [selfA]) := by
  constructor
  · intro packages pkg
    rw [findDep]
    refine List.find?_eq_none.mpr ?_
    intro q _
    simp only [Bool.and_eq_true, beq_iff_eq, bne_iff_ne, ne_eq, not_and]
    intro h1 h2
    exact absurd h1.symm h2
  · rfl

/-- Claim C8: a dependency name matching no package of the collection
contributes no edge (the lookup fails) and causes no error: a package
depending only on an out-of-scope name resolves to itself alone. -/
theorem claim_C8 :
    (∀ (packages : List Package) (pkg : Package) (d : String),
      d ∉ namesOf packages → findDep packages pkg d = none) ∧
    release_order [extA] 2 = some (Except.ok [extA]) := by
  constructor
  · intro packages pkg d hd
    rw [findDep]
    refine List.find?_eq_none.mpr ?_
    intro q hq
    simp only [Bool.and_eq_true, beq_iff_eq, bne_iff_ne, ne_eq, not_and]
    intro h1 _
    exact absurd (mem_namesOf.mpr ⟨q, hq, h1.symm⟩) hd
  · rfl

theorem claim_C8_witness : findDep [extA] extA ("external-lib") = none :=
  claim_C8.1 [extA] extA ("external-lib") (by decide)

/-- Claim C9: when `release_order` reports a circular dependency,
`Publish::run` propagates the error before invoking the check command or any
publish command (the executed command trace is empty), and the error carries
both package names of the detected back-edge. -/
theorem claim_C9 (packages : List Package) (checkOk : Bool) (pubOk : String → Bool)
    (fuel : Nat) (a b : String)
    (h : release_order packages fuel = some (Except.error (RError.circular a b))) :
    publish_run packages checkOk pubOk fuel =
      some ([], RunOutcome.resolverError (RError.circular a b)) := by
  simp [publish_run, h]

theorem claim_C9_witness :
    publish_run [cycA, cycB] true (fun _ => true) 4 =
      some ([], RunOutcome.resolverError (RError.circular ("A") ("B"))) :=
  claim_C9 [cycA, cycB] true (fun _ => true) 4 ("A") ("B") rfl

/-- Claim C10: result and marker membership is tested by name only, so any
successful result contains at most one package per distinct name and draws
every element from the input; with two distinct same-named input packages,
only the first one visited is emitted and the result is shorter than the
input. -/
theorem claim_C10 :
    (∀ (packages : List Package) (fuel : Nat) (order : List Package),
      release_order packages fuel = some (Except.ok order) →
      (namesOf order).Nodup ∧ ∀ p ∈ order, p ∈ packages) ∧
    release_order [pkgA, dupA2] 2 = some (Except.ok [pkgA]) := by
  constructor
  · intro packages fuel order h
    obtain ⟨hOrd, _⟩ := release_order_A h
    exact ⟨hOrd.2.1, hOrd.2.2.1⟩
  · rfl

theorem claim_C10_witness :
    (namesOf [pkgA]).Nodup ∧ ∀ p ∈ [pkgA], p ∈ [pkgA, dupA2] :=
  claim_C10.1 [pkgA, dupA2] 2 [pkgA] rfl

end ReleaseOxc
